import Mathlib

/-!
The diff worklist of `cmd/noms-diff/queue.go`.

`diffQueue` embeds a `*list.List` of Go's standard `container/list` package and adds
`PopFront`.  The development below embeds

* the part of `container/list` that the queue uses (`New`, `Init`, `Len`, `Front`, `Next`,
  `PushBack`, `PushFront`, `Remove` and their unexported helpers) as a doubly linked ring of
  heap cells around the sentinel `l.root`, statement by statement (the statements are those
  of the current standard library; older releases order the pointer assignments of `insert`
  differently, with the same effect);
* `diffInfo`, `diffQueue`, `diffQueue.PopFront` and `NewDiffQueue` from `queue.go`.

Pointers are explicit, a nil dereference and a failed type assertion are `Except` errors, and
`l.len` is an unbounded `Int` (a list of `2^63` elements does not fit in the address space of
the machine, so the wrap-around of Go's `int` is out of reach of `len++`).
-/

namespace NomsDiff

/-! ## Values carried by a task -/

/-- Modelled from the spec: the scalar payload of a `Primitive` value.  The package
`github.com/attic-labs/noms/go/types` is not part of the sources; the three kinds are the ones
named by `read_test.go` (`BoolKind`, `NumberKind`, `StringKind`), numbers being restricted to
integers here. -/
inductive Scalar where
  | bool (b : Bool)
  | number (n : Int)
  | string (s : String)

/-- Modelled from the spec: `types.Value`, the tagged union
`Primitive | Blob | Struct | List | Set | Map` of section 3 (the package `types` is not part of
the sources).  It is only used to build concrete tasks; every definition and theorem about the
queue is generic in the type of values. -/
inductive Value where
  | prim (s : Scalar)
  | blob (bytes : List Nat)
  | struct (name : String) (fields : List (String × Value))
  | list (items : List Value)
  | set (items : List Value)
  | map (entries : List (Value × Value))

/-- Modelled from the spec: one component of a `types.Path`, "a field name (struct), an index
(ordered sequence position), or a key (map/set element identity)". -/
inductive PathPart where
  | field (name : String)
  | index (i : Nat)
  | key (k : Value)

/-- The struct `diffInfo` of `queue.go`.  `PP` is the type of the components of a `types.Path`
(a slice, whose zero value is the empty path) and `V` the type of the non-nil `types.Value`s
(an interface, whose zero value `nil` is `none`). -/
structure diffInfo (PP V : Type) where
  path : List PP
  key : Option V
  v1 : Option V
  v2 : Option V

/-- The composite literal `diffInfo{}`: every field holds its zero value. -/
def diffInfo.zero {PP V : Type} : diffInfo PP V :=
  { path := [], key := none, v1 := none, v2 := none }

/-! ## `container/list` -/

/-- A value of type `*Element`: `nil`, the address `&l.root` of the sentinel, or the address of
a heap cell. -/
inductive Ptr where
  | nil
  | root
  | node (a : Nat)
  deriving DecidableEq

/-- A value of type `*List` as stored in `Element.list`: `nil` or the address of the list `l`
(the only list of the model). -/
inductive ListRef where
  | nil
  | self
  deriving DecidableEq

/-- A value of the interface type `any` as stored in `Element.Value`: `nil`, a `diffInfo`, or a
value of some other dynamic type (told apart by a tag). -/
inductive Any (PP V : Type) where
  | nil
  | info (d : diffInfo PP V)
  | other (tag : Nat)

/-- The struct `list.Element`. -/
structure Element (PP V : Type) where
  next : Ptr
  prev : Ptr
  list : ListRef
  Value : Any PP V

/-- The zero `Element` with the given `Value`: the composite literal `Element{Value: v}`. -/
def Element.new {PP V : Type} (v : Any PP V) : Element PP V :=
  { next := Ptr.nil, prev := Ptr.nil, list := ListRef.nil, Value := v }

/-- The struct `list.List` (fields `root` and `len`) together with the heap cells that hold
its elements: `cells a` is the `Element` stored at address `a`, and `fresh` is the address that
the next allocation `&Element{...}` returns. -/
structure GoList (PP V : Type) where
  root : Element PP V
  len : Int
  cells : Nat → Element PP V
  fresh : Nat

/-- The two run-time panics of the code. -/
inductive Panic where
  | nilDereference
  | typeAssertion
  deriving DecidableEq

namespace GoList

variable {PP V : Type}

/-- Reading through a `*Element`. -/
def load (l : GoList PP V) : Ptr → Except Panic (Element PP V)
  | Ptr.nil => Except.error Panic.nilDereference
  | Ptr.root => Except.ok l.root
  | Ptr.node a => Except.ok (l.cells a)

/-- Writing through a `*Element`. -/
def store (l : GoList PP V) (p : Ptr) (e : Element PP V) : Except Panic (GoList PP V) :=
  match p with
  | Ptr.nil => Except.error Panic.nilDereference
  | Ptr.root => Except.ok { l with root := e }
  | Ptr.node a => Except.ok { l with cells := Function.update l.cells a e }

/-- The assignment `p.next = x`. -/
def setNext (l : GoList PP V) (p x : Ptr) : Except Panic (GoList PP V) := do
  let e ← l.load p
  l.store p { e with next := x }

/-- The assignment `p.prev = x`. -/
def setPrev (l : GoList PP V) (p x : Ptr) : Except Panic (GoList PP V) := do
  let e ← l.load p
  l.store p { e with prev := x }

/-- The assignment `p.list = r`. -/
def setList (l : GoList PP V) (p : Ptr) (r : ListRef) : Except Panic (GoList PP V) := do
  let e ← l.load p
  l.store p { e with list := r }

/-- The allocation `&Element{Value: v}`: the cell at the fresh address is initialised and its
address returned. -/
def alloc (l : GoList PP V) (v : Any PP V) : GoList PP V × Ptr :=
  ({ l with cells := Function.update l.cells l.fresh (Element.new v), fresh := l.fresh + 1 },
    Ptr.node l.fresh)

/-- The zero `List`, as returned by `new(List)`. -/
def zero : GoList PP V :=
  { root := Element.new Any.nil, len := 0, cells := fun _ => Element.new Any.nil, fresh := 0 }

/-- Go source: `func (l *List) Init() *List`:
`l.root.next = &l.root; l.root.prev = &l.root; l.len = 0; return l`. -/
def Init (l : GoList PP V) : GoList PP V :=
  { l with root := { l.root with next := Ptr.root, prev := Ptr.root }, len := 0 }

/-- Go source: `func New() *List { return new(List).Init() }`. -/
def New : GoList PP V :=
  Init zero

/-- Go source: `func (l *List) Len() int { return l.len }`. -/
def Len (l : GoList PP V) : Int :=
  l.len

/-- Go source: `func (l *List) Front() *Element`: `nil` when `l.len == 0`, else `l.root.next`. -/
def Front (l : GoList PP V) : Ptr :=
  if l.len = 0 then Ptr.nil else l.root.next

/-- Go source: `func (e *Element) Next() *Element`:
`if p := e.next; e.list != nil && p != &e.list.root { return p }; return nil`. -/
def Next (l : GoList PP V) (e : Ptr) : Except Panic Ptr := do
  let el ← l.load e
  let p := el.next
  if el.list ≠ ListRef.nil ∧ p ≠ Ptr.root then pure p else pure Ptr.nil

/-- Go source: `func (l *List) lazyInit()`: `if l.root.next == nil { l.Init() }`. -/
def lazyInit (l : GoList PP V) : GoList PP V :=
  if l.root.next = Ptr.nil then l.Init else l

/-- Go source: `func (l *List) insert(e, at *Element) *Element`:
`e.prev = at; e.next = at.next; e.prev.next = e; e.next.prev = e; e.list = l; l.len++;
return e`. -/
def insert (l : GoList PP V) (e mark : Ptr) : Except Panic (GoList PP V × Ptr) := do
  let l ← l.setPrev e mark
  let m ← l.load mark
  let l ← l.setNext e m.next
  let el ← l.load e
  let l ← l.setNext el.prev e
  let el ← l.load e
  let l ← l.setPrev el.next e
  let l ← l.setList e ListRef.self
  let l := { l with len := l.len + 1 }
  pure (l, e)

/-- Go source: `func (l *List) insertValue(v any, at *Element) *Element`:
`return l.insert(&Element{Value: v}, at)`. -/
def insertValue (l : GoList PP V) (v : Any PP V) (mark : Ptr) :
    Except Panic (GoList PP V × Ptr) :=
  let (l, e) := l.alloc v
  l.insert e mark

/-- Go source: `func (l *List) remove(e *Element)`:
`e.prev.next = e.next; e.next.prev = e.prev; e.next = nil; e.prev = nil; e.list = nil;
l.len--`. -/
def remove (l : GoList PP V) (e : Ptr) : Except Panic (GoList PP V) := do
  let el ← l.load e
  let l ← l.setNext el.prev el.next
  let el ← l.load e
  let l ← l.setPrev el.next el.prev
  let l ← l.setNext e Ptr.nil
  let l ← l.setPrev e Ptr.nil
  let l ← l.setList e ListRef.nil
  pure { l with len := l.len - 1 }

/-- Go source: `func (l *List) Remove(e *Element) any`:
`if e.list == l { l.remove(e) }; return e.Value`. -/
def Remove (l : GoList PP V) (e : Ptr) : Except Panic (GoList PP V × Any PP V) := do
  let el ← l.load e
  let l ← if el.list = ListRef.self then l.remove e else pure l
  let el ← l.load e
  pure (l, el.Value)

/-- Go source: `func (l *List) PushFront(v any) *Element`:
`l.lazyInit(); return l.insertValue(v, &l.root)`. -/
def PushFront (l : GoList PP V) (v : Any PP V) : Except Panic (GoList PP V × Ptr) :=
  let l := l.lazyInit
  l.insertValue v Ptr.root

/-- Go source: `func (l *List) PushBack(v any) *Element`:
`l.lazyInit(); return l.insertValue(v, l.root.prev)`. -/
def PushBack (l : GoList PP V) (v : Any PP V) : Except Panic (GoList PP V × Ptr) :=
  let l := l.lazyInit
  l.insertValue v l.root.prev

/-- The iteration `for e := first; e != nil; e = e.Next() { out = append(out, e.Value) }` of
the package documentation, run for at most `fuel` tests of the loop condition: `some out` when
the loop ends within the fuel, `none` when it does not or when it dereferences `nil`. -/
def walk (l : GoList PP V) : Nat → Ptr → Option (List (Any PP V))
  | 0, _ => none
  | fuel + 1, e =>
    if e = Ptr.nil then some []
    else
      match l.load e, l.Next e with
      | Except.ok el, Except.ok p => (walk l fuel p).map (fun out => el.Value :: out)
      | _, _ => none

/-- The values held by the list from front to back, read by the iteration
`for e := l.Front(); e != nil; e = e.Next()` with `l.Len() + 1` tests of the condition. -/
def contents (l : GoList PP V) : Option (List (Any PP V)) :=
  l.walk (l.len.toNat + 1) l.Front

end GoList

/-! ## `queue.go` -/

/-- The struct `diffQueue`: the embedded pointer `*list.List`, `none` when it is `nil`, with
the memory it points to. -/
structure diffQueue (PP V : Type) where
  list : Option (GoList PP V)

/-- Go source: `func NewDiffQueue() *diffQueue { return &diffQueue{list.New()} }`. -/
def NewDiffQueue {PP V : Type} : diffQueue PP V :=
  { list := some GoList.New }

namespace diffQueue

variable {PP V : Type}

/-- Dereferencing the embedded `*list.List` for a promoted method. -/
def deref (q : diffQueue PP V) : Except Panic (GoList PP V) :=
  match q.list with
  | none => Except.error Panic.nilDereference
  | some l => Except.ok l

/-- The promoted method `q.Len()`. -/
def Len (q : diffQueue PP V) : Except Panic Int := do
  let l ← q.deref
  pure l.Len

/-- The promoted method `q.Front()`. -/
def Front (q : diffQueue PP V) : Except Panic Ptr := do
  let l ← q.deref
  pure l.Front

/-- The promoted method `q.Remove(e)`. -/
def Remove (q : diffQueue PP V) (e : Ptr) : Except Panic (diffQueue PP V × Any PP V) := do
  let l ← q.deref
  let (l, v) ← l.Remove e
  pure ({ list := some l }, v)

/-- The promoted method `q.PushBack(v)`. -/
def PushBack (q : diffQueue PP V) (v : Any PP V) : Except Panic (diffQueue PP V × Ptr) := do
  let l ← q.deref
  let (l, e) ← l.PushBack v
  pure ({ list := some l }, e)

/-- The promoted method `q.PushFront(v)`. -/
def PushFront (q : diffQueue PP V) (v : Any PP V) : Except Panic (diffQueue PP V × Ptr) := do
  let l ← q.deref
  let (l, e) ← l.PushFront v
  pure ({ list := some l }, e)

/-- Reading `el.Value` through the element pointer `el`. -/
def valueOf (q : diffQueue PP V) (el : Ptr) : Except Panic (Any PP V) := do
  let l ← q.deref
  let e ← l.load el
  pure e.Value

/-- The type assertion `x.(diffInfo)`, which panics unless the dynamic type is `diffInfo`. -/
def assertDiffInfo : Any PP V → Except Panic (diffInfo PP V)
  | Any.info d => Except.ok d
  | _ => Except.error Panic.typeAssertion

/-- The method of `queue.go`:

    func (q *diffQueue) PopFront() (diffInfo, bool) {
      el := q.Front()
      if el == nil { return diffInfo{}, false }
      q.Remove(el)
      return el.Value.(diffInfo), true
    }

The result is the returned pair and the queue after the call. -/
def PopFront (q : diffQueue PP V) : Except Panic ((diffInfo PP V × Bool) × diffQueue PP V) := do
  let el ← q.Front
  if el = Ptr.nil then
    pure ((diffInfo.zero, false), q)
  else
    let (q, _) ← q.Remove el
    let v ← q.valueOf el
    let d ← assertDiffInfo v
    pure ((d, true), q)

/-- The values held by the queue from front to back (`GoList.contents` of the embedded list),
`none` when the embedded pointer is `nil`. -/
def contents (q : diffQueue PP V) : Option (List (Any PP V)) :=
  match q.list with
  | none => none
  | some l => l.contents

end diffQueue

/-! ## Sequences of calls -/

/-- One call on the queue: `q.PushBack(v)`, `q.PushFront(v)` or `q.PopFront()`. -/
inductive Op (PP V : Type) where
  | pushBack (v : Any PP V)
  | pushFront (v : Any PP V)
  | popFront

variable {PP V : Type}

/-- Performs one call; the list holds the pair returned by `PopFront` (nothing for a push). -/
def Op.exec (q : diffQueue PP V) :
    Op PP V → Except Panic (List (diffInfo PP V × Bool) × diffQueue PP V)
  | Op.pushBack v => do
    let (q, _) ← q.PushBack v
    pure ([], q)
  | Op.pushFront v => do
    let (q, _) ← q.PushFront v
    pure ([], q)
  | Op.popFront => do
    let (r, q) ← q.PopFront
    pure ([r], q)

/-- Performs the calls from left to right; the result is the list of the pairs returned by the
`PopFront` calls, in order, and the final queue. -/
def run : List (Op PP V) → diffQueue PP V →
    Except Panic (List (diffInfo PP V × Bool) × diffQueue PP V)
  | [], q => pure ([], q)
  | op :: ops, q => do
    let (r, q) ← op.exec q
    let (rs, q) ← run ops q
    pure (r ++ rs, q)

/-- The value pushed by a call, if it is a push, is a `diffInfo`. -/
def Op.pushesInfo : Op PP V → Bool
  | Op.pushBack (Any.info _) => true
  | Op.pushFront (Any.info _) => true
  | Op.popFront => true
  | _ => false

/-- The loop `for { d, ok := q.PopFront(); if !ok { break }; out = append(out, d) }`, run for
at most `fuel` calls of `PopFront`: `some (out, q)` when the loop ends within the fuel, `none`
when it does not. -/
def drain : Nat → diffQueue PP V → Except Panic (Option (List (diffInfo PP V) × diffQueue PP V))
  | 0, _ => pure none
  | fuel + 1, q => do
    let (r, q) ← q.PopFront
    if r.2 then
      let rest ← drain fuel q
      pure (rest.map (fun out => (r.1 :: out.1, out.2)))
    else
      pure (some ([], q))

/-- The two calls of the worklist contract: `enqueue(task)` is `PushBack(d)` and `dequeue()` is
`PopFront()`. -/
inductive QOp (PP V : Type) where
  | enqueue (d : diffInfo PP V)
  | dequeue

/-- The call on `diffQueue` that realises a call of the contract. -/
def QOp.toOp : QOp PP V → Op PP V
  | QOp.enqueue d => Op.pushBack (Any.info d)
  | QOp.dequeue => Op.popFront

/-- The pure model of the worklist, written from the words of the specification: the state is
a list, `enqueue` appends at the end, `dequeue` removes and returns the head, or fails (returns
the zero task and `false`) on the empty list. -/
def specStep (s : List (diffInfo PP V)) : QOp PP V → List (diffInfo PP V × Bool) × List (diffInfo PP V)
  | QOp.enqueue d => ([], s ++ [d])
  | QOp.dequeue =>
    match s with
    | [] => ([(diffInfo.zero, false)], [])
    | d :: rest => ([(d, true)], rest)

/-- The pure model run over a sequence of calls: the results of the `dequeue` calls and the
final list. -/
def specRun : List (QOp PP V) → List (diffInfo PP V) →
    List (diffInfo PP V × Bool) × List (diffInfo PP V)
  | [], s => ([], s)
  | op :: ops, s =>
    let (r, s1) := specStep s op
    let (rs, s2) := specRun ops s1
    (r ++ rs, s2)

/-- The effect of one call on the list of the values held, front first: a push adds the value
at its end of the list, `PopFront` on the empty list returns `(diffInfo{}, false)`, and on a
non-empty list it removes the head and asserts that it is a `diffInfo`. -/
def absStep (s : List (Any PP V)) :
    Op PP V → Except Panic (List (diffInfo PP V × Bool) × List (Any PP V))
  | Op.pushBack v => Except.ok ([], s ++ [v])
  | Op.pushFront v => Except.ok ([], v :: s)
  | Op.popFront =>
    match s with
    | [] => Except.ok ([(diffInfo.zero, false)], [])
    | Any.info d :: rest => Except.ok ([(d, true)], rest)
    | _ :: _ => Except.error Panic.typeAssertion

/-- The effect of a sequence of calls on the list of the values held. -/
def absRun : List (Op PP V) → List (Any PP V) →
    Except Panic (List (diffInfo PP V × Bool) × List (Any PP V))
  | [], s => Except.ok ([], s)
  | op :: ops, s =>
    match absStep s op with
    | Except.error e => Except.error e
    | Except.ok (r, s1) =>
      match absRun ops s1 with
      | Except.error e => Except.error e
      | Except.ok (rs, s2) => Except.ok (r ++ rs, s2)

/-! ## Sample tasks -/

/-- The task `(path = [], a = 1, b = 2)` that seeds a diff. -/
def taskA : diffInfo PathPart Value :=
  { path := [], key := none,
    v1 := some (Value.prim (Scalar.number 1)), v2 := some (Value.prim (Scalar.number 2)) }

/-- A child task at the struct field `f`. -/
def taskB : diffInfo PathPart Value :=
  { path := [PathPart.field "f"], key := none,
    v1 := some (Value.prim (Scalar.bool true)), v2 := some (Value.prim (Scalar.bool false)) }

/-- A child task for the map entry with key `"k"`. -/
def taskC : diffInfo PathPart Value :=
  { path := [PathPart.field "m"], key := some (Value.prim (Scalar.string "k")),
    v1 := some (Value.prim (Scalar.number 1)), v2 := some (Value.prim (Scalar.number 20)) }

/-! ## The representation invariant -/

/-- The pointer to the first cell of a chain, or `d` when the chain is empty. -/
def headPtr (xs : List (Nat × Any PP V)) (d : Ptr) : Ptr :=
  match xs with
  | [] => d
  | x :: _ => Ptr.node x.1

/-- The pointer to the last cell of a chain, or `d` when the chain is empty. -/
def lastPtr : List (Nat × Any PP V) → Ptr → Ptr
  | [], d => d
  | x :: rest, _ => lastPtr rest (Ptr.node x.1)

/-- The cells at the addresses of `xs` form a doubly linked chain that holds the values of `xs`:
the first cell points back to `p`, the last one points on to `n`, and every cell belongs to
the list. -/
def Seg (cells : Nat → Element PP V) : Ptr → List (Nat × Any PP V) → Ptr → Prop
  | _, [], _ => True
  | p, x :: rest, n =>
    cells x.1 = { next := headPtr rest n, prev := p, list := ListRef.self, Value := x.2 } ∧
      Seg cells (Ptr.node x.1) rest n

/-- The list `l` is a well-formed ring: the sentinel and the cells at the (distinct, allocated)
addresses of `xs` are linked in both directions, and `l.len` is the number of cells. -/
structure Inv (l : GoList PP V) (xs : List (Nat × Any PP V)) : Prop where
  rootNext : l.root.next = headPtr xs Ptr.root
  rootPrev : l.root.prev = lastPtr xs Ptr.root
  len : l.len = xs.length
  seg : Seg l.cells Ptr.root xs Ptr.root
  nodup : (xs.map Prod.fst).Nodup
  alloc : ∀ a ∈ xs.map Prod.fst, a < l.fresh

/-- The queue `q` points to a well-formed list whose cells are `xs`. -/
def Rep (q : diffQueue PP V) (xs : List (Nat × Any PP V)) : Prop :=
  ∃ l, q.list = some l ∧ Inv l xs

/-! ## Lemmas on chains -/

theorem lastPtr_append_single (xs : List (Nat × Any PP V)) (y : Nat × Any PP V) (d : Ptr) :
    lastPtr (xs ++ [y]) d = Ptr.node y.1 := by
  induction xs generalizing d with
  | nil => rfl
  | cons x rest ih => simpa [lastPtr] using ih _

theorem headPtr_ne_nil (xs : List (Nat × Any PP V)) : headPtr xs Ptr.root ≠ Ptr.nil := by
  cases xs <;> simp [headPtr]

theorem headPtr_append (xs zs : List (Nat × Any PP V)) (d : Ptr) :
    headPtr (xs ++ zs) d = headPtr xs (headPtr zs d) := by
  cases xs <;> simp [headPtr]

theorem Seg_frame {cells cells2 : Nat → Element PP V} {xs : List (Nat × Any PP V)} {p n : Ptr}
    (h : ∀ a ∈ xs.map Prod.fst, cells2 a = cells a) (hs : Seg cells p xs n) :
    Seg cells2 p xs n := by
  induction xs generalizing p with
  | nil => trivial
  | cons x rest ih =>
    refine ⟨?_, ih (fun a ha => h a (by simp at ha ⊢; exact Or.inr ha)) hs.2⟩
    rw [h x.1 (by simp)]
    exact hs.1

theorem Seg_update {cells : Nat → Element PP V} {xs : List (Nat × Any PP V)} {p n : Ptr}
    {a : Nat} {e : Element PP V} (ha : a ∉ xs.map Prod.fst) (hs : Seg cells p xs n) :
    Seg (Function.update cells a e) p xs n := by
  refine Seg_frame (fun b hb => ?_) hs
  have : b ≠ a := fun hba => ha (hba ▸ hb)
  simp [Function.update, this]

theorem Seg_append {cells : Nat → Element PP V} (xs ys : List (Nat × Any PP V)) (p n : Ptr) :
    Seg cells p (xs ++ ys) n ↔ Seg cells p xs (headPtr ys n) ∧ Seg cells (lastPtr xs p) ys n := by
  induction xs generalizing p with
  | nil => simp [Seg, lastPtr]
  | cons x rest ih =>
    have hh : headPtr (rest ++ ys) n = headPtr rest (headPtr ys n) := by
      cases rest <;> simp [headPtr]
    rw [List.cons_append]
    simp only [Seg, lastPtr]
    rw [ih, hh, and_assoc]

theorem Inv_New : Inv (GoList.New : GoList PP V) [] := by
  constructor <;> simp [GoList.New, GoList.Init, GoList.zero, headPtr, lastPtr, Seg]

theorem PushBack_Inv {l : GoList PP V} {xs : List (Nat × Any PP V)} (h : Inv l xs)
    (v : Any PP V) :
    ∃ l2, l.PushBack v = Except.ok (l2, Ptr.node l.fresh) ∧ Inv l2 (xs ++ [(l.fresh, v)]) := by
  obtain ⟨⟨rn, rp, rl, rv⟩, len, cells, fresh⟩ := l
  obtain ⟨h1, h2, h3, h4, h5, h6⟩ := h
  simp only at h1 h2 h3 h4 h6
  have hne := headPtr_ne_nil xs
  subst h1 h2 h3
  rcases List.eq_nil_or_concat xs with rfl | ⟨ys, y, rfl⟩
  · simp [GoList.PushBack, GoList.lazyInit, GoList.insertValue, GoList.alloc, GoList.insert,
      GoList.setPrev, GoList.setNext, GoList.setList, GoList.load, GoList.store, headPtr,
      lastPtr, bind, Except.bind, pure, Except.pure, Element.new]
    constructor <;> simp [headPtr, lastPtr, Seg]
  · simp only [List.concat_eq_append] at h4 h5 h6 hne ⊢
    have hy : y.1 < fresh := h6 y.1 (by simp)
    have hyf : y.1 ≠ fresh := Nat.ne_of_lt hy
    have hfy : fresh ≠ y.1 := fun e => hyf e.symm
    rw [Seg_append] at h4
    obtain ⟨hs, hc, -⟩ := h4
    simp only [headPtr] at hs hc
    simp [GoList.PushBack, GoList.lazyInit, hne, lastPtr_append_single, GoList.insertValue,
      GoList.alloc, GoList.insert, GoList.setPrev, GoList.setNext, GoList.setList, GoList.load,
      GoList.store, bind, Except.bind, pure, Except.pure, Element.new, hyf, hfy, hc]
    have hfresh : fresh ∉ ys.map Prod.fst := fun hm =>
      Nat.lt_irrefl _ (h6 fresh (by simp at hm ⊢; exact Or.inl hm))
    have hynot : y.1 ∉ ys.map Prod.fst := by
      rw [List.map_append, List.nodup_append] at h5
      intro hm
      exact h5.2.2 hm (by simp)
    constructor
    · show headPtr (ys ++ [y]) Ptr.root = headPtr (ys ++ [y, (fresh, v)]) Ptr.root
      rw [headPtr_append, headPtr_append]
      rfl
    · have e : ys ++ [y, (fresh, v)] = (ys ++ [y]) ++ [(fresh, v)] := by simp
      simp only [e, lastPtr_append_single]
    · simp
      ring
    · simp only [Seg_append, Seg, headPtr]
      refine ⟨Seg_update hfresh (Seg_update hynot (Seg_update hfresh hs)), ?_, ?_, trivial⟩
      · simp [Function.update, hyf]
      · simp [Function.update, lastPtr_append_single]
    · have e : ys ++ [y, (fresh, v)] = (ys ++ [y]) ++ [(fresh, v)] := by simp
      rw [e, List.map_append, List.nodup_append]
      refine ⟨h5, by simp, ?_⟩
      intro a ha hb
      simp at hb
      subst hb
      exact Nat.lt_irrefl _ (h6 _ ha)
    · intro a ha
      have e : ys ++ [y, (fresh, v)] = (ys ++ [y]) ++ [(fresh, v)] := by simp
      rw [e, List.map_append, List.mem_append] at ha
      rcases ha with ha | ha
      · exact Nat.lt_succ_of_lt (h6 a ha)
      · simp at ha
        subst ha
        exact Nat.lt_succ_self _

theorem PushFront_Inv {l : GoList PP V} {xs : List (Nat × Any PP V)} (h : Inv l xs)
    (v : Any PP V) :
    ∃ l2, l.PushFront v = Except.ok (l2, Ptr.node l.fresh) ∧ Inv l2 ((l.fresh, v) :: xs) := by
  obtain ⟨⟨rn, rp, rl, rv⟩, len, cells, fresh⟩ := l
  obtain ⟨h1, h2, h3, h4, h5, h6⟩ := h
  simp only at h1 h2 h3 h4 h6
  have hne := headPtr_ne_nil xs
  subst h1 h2 h3
  cases xs with
  | nil =>
    simp [GoList.PushFront, GoList.lazyInit, GoList.insertValue, GoList.alloc, GoList.insert,
      GoList.setPrev, GoList.setNext, GoList.setList, GoList.load, GoList.store, headPtr,
      lastPtr, bind, Except.bind, pure, Except.pure, Element.new]
    constructor <;> simp [headPtr, lastPtr, Seg]
  | cons x rest =>
    have hx : x.1 < fresh := h6 x.1 (by simp)
    have hxf : x.1 ≠ fresh := Nat.ne_of_lt hx
    have hfx : fresh ≠ x.1 := fun e => hxf e.symm
    obtain ⟨hc, hs⟩ := h4
    simp [GoList.PushFront, GoList.lazyInit, GoList.insertValue, GoList.alloc, GoList.insert,
      GoList.setPrev, GoList.setNext, GoList.setList, GoList.load, GoList.store, headPtr,
      bind, Except.bind, pure, Except.pure, Element.new, hxf, hfx, hc]
    have hfresh : fresh ∉ rest.map Prod.fst := fun hm =>
      Nat.lt_irrefl _ (h6 fresh (by simp at hm ⊢; exact Or.inr hm))
    have hxnot : x.1 ∉ rest.map Prod.fst := (List.nodup_cons.mp h5).1
    constructor
    · rfl
    · rfl
    · simp
    · refine ⟨?_, ?_, Seg_update hfresh (Seg_update hxnot (Seg_update hfresh hs))⟩
      · simp [Function.update, headPtr]
      · simp [Function.update, hxf]
        rfl
    · rw [List.map_cons, List.nodup_cons]
      exact ⟨fun hm => Nat.lt_irrefl _ (h6 fresh hm), h5⟩
    · intro b hb
      rw [List.map_cons, List.mem_cons] at hb
      rcases hb with hb | hb
      · subst hb
        exact Nat.lt_succ_self _
      · exact Nat.lt_succ_of_lt (h6 b hb)

theorem Remove_front_Inv {l : GoList PP V} {a : Nat} {v : Any PP V}
    {xs : List (Nat × Any PP V)} (h : Inv l ((a, v) :: xs)) :
    l.Front = Ptr.node a ∧
      ∃ l2, l.Remove (Ptr.node a) = Except.ok (l2, v) ∧ Inv l2 xs ∧
        l2.load (Ptr.node a) = Except.ok (Element.new v) := by
  obtain ⟨⟨rn, rp, rl, rv⟩, len, cells, fresh⟩ := l
  obtain ⟨h1, h2, h3, h4, h5, h6⟩ := h
  simp only at h1 h2 h3 h4 h6
  subst h1 h2 h3
  obtain ⟨hc, hs⟩ := h4
  simp only at hc
  refine ⟨?_, ?_⟩
  · simp [GoList.Front, headPtr]
    omega
  · cases xs with
    | nil =>
      simp [GoList.Remove, GoList.remove, GoList.setPrev, GoList.setNext, GoList.setList,
        GoList.load, GoList.store, headPtr, lastPtr, bind, Except.bind, pure, Except.pure,
        Element.new, hc]
      constructor <;> simp [headPtr, lastPtr, Seg]
    | cons x rest =>
      have hnd := List.nodup_cons.mp h5
      have hax : a ≠ x.1 := fun e => hnd.1 (by simp [e])
      have hxa : x.1 ≠ a := fun e => hax e.symm
      have hanot : a ∉ rest.map Prod.fst := fun hm => hnd.1 (by simp at hm ⊢; exact Or.inr hm)
      have hxnot : x.1 ∉ rest.map Prod.fst := (List.nodup_cons.mp hnd.2).1
      obtain ⟨hcx, hs2⟩ := hs
      simp only at hcx
      simp [GoList.Remove, GoList.remove, GoList.setPrev, GoList.setNext, GoList.setList,
        GoList.load, GoList.store, headPtr, lastPtr, bind, Except.bind, pure, Except.pure,
        Element.new, hc, hcx, hax, hxa]
      constructor
      · rfl
      · rfl
      · simp
      · refine ⟨?_, Seg_update hanot (Seg_update hxnot hs2)⟩
        simp [Function.update, hxa]
        rfl
      · exact hnd.2
      · intro b hb
        exact h6 b (by simp at hb ⊢; exact Or.inr hb)

theorem walk_Seg (l : GoList PP V) (rest : List (Nat × Any PP V)) (x : Nat × Any PP V)
    (p : Ptr) (fuel : Nat) (hs : Seg l.cells p (x :: rest) Ptr.root)
    (hf : rest.length + 2 ≤ fuel) :
    l.walk fuel (Ptr.node x.1) = some ((x :: rest).map Prod.snd) := by
  induction rest generalizing x p fuel with
  | nil =>
    obtain ⟨hc, -⟩ := hs
    obtain ⟨f, rfl⟩ : ∃ f, fuel = f + 2 := ⟨fuel - 2, by simp at hf; omega⟩
    simp [GoList.walk, GoList.load, GoList.Next, hc, headPtr, bind, Except.bind, pure,
      Except.pure]
  | cons y rest ih =>
    obtain ⟨hc, hs2⟩ := hs
    obtain ⟨f, rfl⟩ : ∃ f, fuel = f + 1 := ⟨fuel - 1, by simp at hf; omega⟩
    have := ih y (Ptr.node x.1) f hs2 (by simp at hf ⊢; omega)
    simp [GoList.walk, GoList.load, GoList.Next, hc, headPtr, bind, Except.bind, pure,
      Except.pure, this]

theorem contents_Inv {l : GoList PP V} {xs : List (Nat × Any PP V)} (h : Inv l xs) :
    l.contents = some (xs.map Prod.snd) := by
  cases xs with
  | nil =>
    have := h.len
    simp at this
    simp [GoList.contents, GoList.Front, this, GoList.walk]
  | cons x rest =>
    have hl := h.len
    have hn := h.rootNext
    have hne : l.len ≠ 0 := by rw [hl]; simp; omega
    unfold GoList.contents GoList.Front
    rw [if_neg hne, hn]
    exact walk_Seg l rest x Ptr.root _ h.seg (by rw [hl]; simp)

/-! ## The queue and the list of the values it holds -/

theorem Rep_New : Rep (NewDiffQueue : diffQueue PP V) [] :=
  ⟨_, rfl, Inv_New⟩

theorem Rep_contents {q : diffQueue PP V} {xs : List (Nat × Any PP V)} (h : Rep q xs) :
    q.contents = some (xs.map Prod.snd) := by
  obtain ⟨l, hl, hi⟩ := h
  simp [diffQueue.contents, hl, contents_Inv hi]

theorem Rep_Len {q : diffQueue PP V} {xs : List (Nat × Any PP V)} (h : Rep q xs) :
    q.Len = Except.ok (xs.length : Int) := by
  obtain ⟨l, hl, hi⟩ := h
  simp [diffQueue.Len, diffQueue.deref, hl, GoList.Len, hi.len, bind, Except.bind, pure,
    Except.pure]

theorem Rep_PushBack {q : diffQueue PP V} {xs : List (Nat × Any PP V)} (h : Rep q xs)
    (v : Any PP V) :
    ∃ q2 a, q.PushBack v = Except.ok (q2, Ptr.node a) ∧ Rep q2 (xs ++ [(a, v)]) := by
  obtain ⟨l, hl, hi⟩ := h
  obtain ⟨l2, h2, hi2⟩ := PushBack_Inv hi v
  exact ⟨⟨some l2⟩, l.fresh, by
    simp [diffQueue.PushBack, diffQueue.deref, hl, h2, bind, Except.bind, pure, Except.pure],
    l2, rfl, hi2⟩

theorem Rep_PushFront {q : diffQueue PP V} {xs : List (Nat × Any PP V)} (h : Rep q xs)
    (v : Any PP V) :
    ∃ q2 a, q.PushFront v = Except.ok (q2, Ptr.node a) ∧ Rep q2 ((a, v) :: xs) := by
  obtain ⟨l, hl, hi⟩ := h
  obtain ⟨l2, h2, hi2⟩ := PushFront_Inv hi v
  exact ⟨⟨some l2⟩, l.fresh, by
    simp [diffQueue.PushFront, diffQueue.deref, hl, h2, bind, Except.bind, pure, Except.pure],
    l2, rfl, hi2⟩

theorem Rep_Front_nil {q : diffQueue PP V} (h : Rep q []) : q.Front = Except.ok Ptr.nil := by
  obtain ⟨l, hl, hi⟩ := h
  have := hi.len
  simp at this
  simp [diffQueue.Front, diffQueue.deref, hl, GoList.Front, this, bind, Except.bind, pure,
    Except.pure]

theorem Rep_Front_cons {q : diffQueue PP V} {x : Nat × Any PP V} {xs : List (Nat × Any PP V)}
    (h : Rep q (x :: xs)) : q.Front = Except.ok (Ptr.node x.1) := by
  obtain ⟨l, hl, hi⟩ := h
  obtain ⟨a, v⟩ := x
  simp [diffQueue.Front, diffQueue.deref, hl, (Remove_front_Inv hi).1, bind, Except.bind, pure,
    Except.pure]

theorem Rep_PopFront_nil {q : diffQueue PP V} (h : Rep q []) :
    q.PopFront = Except.ok ((diffInfo.zero, false), q) := by
  simp [diffQueue.PopFront, Rep_Front_nil h, bind, Except.bind, pure, Except.pure]

theorem Rep_PopFront_info {q : diffQueue PP V} {a : Nat} {d : diffInfo PP V}
    {xs : List (Nat × Any PP V)} (h : Rep q ((a, Any.info d) :: xs)) :
    ∃ q2, q.PopFront = Except.ok ((d, true), q2) ∧ Rep q2 xs := by
  have hf := Rep_Front_cons h
  obtain ⟨l, hl, hi⟩ := h
  obtain ⟨-, l2, h2, hi2, hv⟩ := Remove_front_Inv hi
  refine ⟨⟨some l2⟩, ?_, l2, rfl, hi2⟩
  simp [diffQueue.PopFront, hf, diffQueue.Remove, diffQueue.deref, hl, h2, diffQueue.valueOf,
    hv, Element.new, diffQueue.assertDiffInfo, bind, Except.bind, pure, Except.pure]

theorem Rep_PopFront_bad {q : diffQueue PP V} {a : Nat} {v : Any PP V}
    {xs : List (Nat × Any PP V)} (h : Rep q ((a, v) :: xs)) (hv : ∀ d, v ≠ Any.info d) :
    q.PopFront = Except.error Panic.typeAssertion := by
  have hf := Rep_Front_cons h
  obtain ⟨l, hl, hi⟩ := h
  obtain ⟨-, l2, h2, hi2, hv2⟩ := Remove_front_Inv hi
  cases v with
  | info d => exact absurd rfl (hv d)
  | nil =>
    simp [diffQueue.PopFront, hf, diffQueue.Remove, diffQueue.deref, hl, h2, diffQueue.valueOf,
      hv2, Element.new, diffQueue.assertDiffInfo, bind, Except.bind, pure, Except.pure]
  | other t =>
    simp [diffQueue.PopFront, hf, diffQueue.Remove, diffQueue.deref, hl, h2, diffQueue.valueOf,
      hv2, Element.new, diffQueue.assertDiffInfo, bind, Except.bind, pure, Except.pure]

/-! ## Simulation of the queue by the list of its values -/

theorem exec_sim {q : diffQueue PP V} {xs : List (Nat × Any PP V)} (h : Rep q xs)
    (op : Op PP V) :
    (∀ e, absStep (xs.map Prod.snd) op = Except.error e → op.exec q = Except.error e) ∧
      (∀ r ys, absStep (xs.map Prod.snd) op = Except.ok (r, ys) →
        ∃ q2 zs, op.exec q = Except.ok (r, q2) ∧ Rep q2 zs ∧ zs.map Prod.snd = ys) := by
  cases op with
  | pushBack v =>
    obtain ⟨q2, a, h2, hr⟩ := Rep_PushBack h v
    refine ⟨fun e he => by simp [absStep] at he, fun r ys he => ?_⟩
    simp only [absStep, Except.ok.injEq, Prod.mk.injEq] at he
    obtain ⟨rfl, rfl⟩ := he
    exact ⟨q2, _, by simp [Op.exec, h2, bind, Except.bind, pure, Except.pure], hr, by simp⟩
  | pushFront v =>
    obtain ⟨q2, a, h2, hr⟩ := Rep_PushFront h v
    refine ⟨fun e he => by simp [absStep] at he, fun r ys he => ?_⟩
    simp only [absStep, Except.ok.injEq, Prod.mk.injEq] at he
    obtain ⟨rfl, rfl⟩ := he
    exact ⟨q2, _, by simp [Op.exec, h2, bind, Except.bind, pure, Except.pure], hr, by simp⟩
  | popFront =>
    match xs, h with
    | [], h =>
      refine ⟨fun e he => by simp [absStep] at he, fun r ys he => ?_⟩
      simp only [absStep, List.map_nil, Except.ok.injEq, Prod.mk.injEq] at he
      obtain ⟨rfl, rfl⟩ := he
      exact ⟨q, [], by simp [Op.exec, Rep_PopFront_nil h, bind, Except.bind, pure, Except.pure],
        h, rfl⟩
    | (a, Any.info d) :: rest, h =>
      obtain ⟨q2, h2, hr⟩ := Rep_PopFront_info h
      refine ⟨fun e he => by simp [absStep] at he, fun r ys he => ?_⟩
      simp only [absStep, List.map_cons, Except.ok.injEq, Prod.mk.injEq] at he
      obtain ⟨rfl, rfl⟩ := he
      exact ⟨q2, rest, by simp [Op.exec, h2, bind, Except.bind, pure, Except.pure], hr, rfl⟩
    | (a, Any.nil) :: rest, h =>
      have hb := Rep_PopFront_bad h (fun d => by simp)
      refine ⟨fun e he => ?_, fun r ys he => by simp [absStep] at he⟩
      simp only [absStep, List.map_cons, Except.error.injEq] at he
      subst he
      simp [Op.exec, hb, bind, Except.bind]
    | (a, Any.other t) :: rest, h =>
      have hb := Rep_PopFront_bad h (fun d => by simp)
      refine ⟨fun e he => ?_, fun r ys he => by simp [absStep] at he⟩
      simp only [absStep, List.map_cons, Except.error.injEq] at he
      subst he
      simp [Op.exec, hb, bind, Except.bind]

theorem run_sim (ops : List (Op PP V)) {q : diffQueue PP V} {xs : List (Nat × Any PP V)}
    (h : Rep q xs) :
    (∀ e, absRun ops (xs.map Prod.snd) = Except.error e → run ops q = Except.error e) ∧
      (∀ rs ys, absRun ops (xs.map Prod.snd) = Except.ok (rs, ys) →
        ∃ q2 zs, run ops q = Except.ok (rs, q2) ∧ Rep q2 zs ∧ zs.map Prod.snd = ys) := by
  induction ops generalizing q xs with
  | nil =>
    refine ⟨fun e he => by simp [absRun] at he, fun rs ys he => ?_⟩
    simp only [absRun, Except.ok.injEq, Prod.mk.injEq] at he
    obtain ⟨rfl, rfl⟩ := he
    exact ⟨q, xs, rfl, h, rfl⟩
  | cons op ops ih =>
    obtain ⟨hse, hso⟩ := exec_sim h op
    cases hst : absStep (xs.map Prod.snd) op with
    | error e1 =>
      refine ⟨fun e he => ?_, fun rs ys he => by simp [absRun, hst] at he⟩
      simp only [absRun, hst, Except.error.injEq] at he
      subst he
      simp [run, hse _ hst, bind, Except.bind]
    | ok p =>
      obtain ⟨r, s1⟩ := p
      obtain ⟨q1, zs, hx, hr, rfl⟩ := hso r s1 hst
      obtain ⟨ihe, iho⟩ := ih hr
      cases hrest : absRun ops (zs.map Prod.snd) with
      | error e1 =>
        refine ⟨fun e he => ?_, fun rs ys he => by simp [absRun, hst, hrest] at he⟩
        simp only [absRun, hst, hrest, Except.error.injEq] at he
        subst he
        simp [run, hx, ihe _ hrest, bind, Except.bind]
      | ok p2 =>
        obtain ⟨rs1, s2⟩ := p2
        obtain ⟨q2, zs2, hx2, hr2, rfl⟩ := iho rs1 s2 hrest
        refine ⟨fun e he => by simp [absRun, hst, hrest] at he, fun rs ys he => ?_⟩
        simp only [absRun, hst, hrest, Except.ok.injEq, Prod.mk.injEq] at he
        obtain ⟨rfl, rfl⟩ := he
        exact ⟨q2, zs2, by simp [run, hx, hx2, bind, Except.bind, pure, Except.pure], hr2, rfl⟩

theorem run_abs {ops : List (Op PP V)} {q : diffQueue PP V} {xs : List (Nat × Any PP V)}
    (h : Rep q xs) {rs : List (diffInfo PP V × Bool)} {ys : List (Any PP V)}
    (ha : absRun ops (xs.map Prod.snd) = Except.ok (rs, ys)) :
    ∃ q2 zs, run ops q = Except.ok (rs, q2) ∧ Rep q2 zs ∧ zs.map Prod.snd = ys :=
  (run_sim ops h).2 rs ys ha

theorem reach_Rep {ops : List (Op PP V)} {rs : List (diffInfo PP V × Bool)}
    {q : diffQueue PP V} (h : run ops NewDiffQueue = Except.ok (rs, q)) :
    ∃ xs, Rep q xs ∧ absRun ops [] = Except.ok (rs, xs.map Prod.snd) := by
  have hs := run_sim ops (Rep_New : Rep (NewDiffQueue : diffQueue PP V) [])
  cases ha : absRun ops ([] : List (Any PP V)) with
  | error e =>
    have := hs.1 e ha
    rw [h] at this
    cases this
  | ok p =>
    obtain ⟨rs1, ys⟩ := p
    obtain ⟨q2, zs, hx, hr, rfl⟩ := hs.2 rs1 ys ha
    rw [h] at hx
    simp only [Except.ok.injEq, Prod.mk.injEq] at hx
    obtain ⟨rfl, rfl⟩ := hx
    exact ⟨zs, hr, rfl⟩

/-! ## Facts on the list of values -/

theorem map_snd_eq_cons {xs : List (Nat × Any PP V)} {v : Any PP V} {ys : List (Any PP V)}
    (h : xs.map Prod.snd = v :: ys) : ∃ a rest, xs = (a, v) :: rest ∧ rest.map Prod.snd = ys := by
  cases xs with
  | nil => simp at h
  | cons x rest =>
    obtain ⟨a, w⟩ := x
    simp only [List.map_cons, List.cons.injEq] at h
    obtain ⟨rfl, h2⟩ := h
    exact ⟨a, rest, rfl, h2⟩

theorem absRun_append {a b : List (Op PP V)} {s s1 s2 : List (Any PP V)}
    {r rs : List (diffInfo PP V × Bool)} (ha : absRun a s = Except.ok (r, s1))
    (hb : absRun b s1 = Except.ok (rs, s2)) : absRun (a ++ b) s = Except.ok (r ++ rs, s2) := by
  induction a generalizing s r with
  | nil =>
    simp only [absRun, Except.ok.injEq, Prod.mk.injEq] at ha
    obtain ⟨rfl, rfl⟩ := ha
    simpa using hb
  | cons op ops ih =>
    rw [List.cons_append]
    cases hst : absStep s op with
    | error e => simp [absRun, hst] at ha
    | ok p =>
      obtain ⟨r0, s0⟩ := p
      cases hrest : absRun ops s0 with
      | error e => simp [absRun, hst, hrest] at ha
      | ok p2 =>
        obtain ⟨r1, s3⟩ := p2
        simp only [absRun, hst, hrest, Except.ok.injEq, Prod.mk.injEq] at ha
        obtain ⟨rfl, rfl⟩ := ha
        simp [absRun, hst, ih hrest]

theorem absRun_pushes (ts : List (diffInfo PP V)) (s : List (Any PP V)) :
    absRun (ts.map (fun d => Op.pushBack (Any.info d))) s =
      Except.ok ([], s ++ ts.map Any.info) := by
  induction ts generalizing s with
  | nil => simp [absRun]
  | cons t ts ih => simp [absRun, absStep, ih]

theorem absRun_pops (ts : List (diffInfo PP V)) (k : Nat) (hk : k ≤ ts.length) :
    absRun (List.replicate k Op.popFront) (ts.map Any.info) =
      Except.ok ((ts.take k).map (fun d => (d, true)), (ts.drop k).map Any.info) := by
  induction k generalizing ts with
  | zero => simp [absRun]
  | succ k ih =>
    cases ts with
    | nil => simp at hk
    | cons t ts =>
      have := ih ts (by simpa using hk)
      simp [List.replicate_succ, absRun, absStep, this]

theorem absRun_pops_all (ts : List (diffInfo PP V)) :
    absRun (List.replicate (ts.length + 1) Op.popFront) (ts.map Any.info) =
      Except.ok (ts.map (fun d => (d, true)) ++ [(diffInfo.zero, false)], []) := by
  have h1 := absRun_pops ts ts.length (Nat.le_refl _)
  have h2 : absRun (List.replicate 1 Op.popFront) ((ts.drop ts.length).map Any.info) =
      Except.ok ([((diffInfo.zero : diffInfo PP V), false)], []) := by
    simp [absRun, absStep]
  have := absRun_append h1 h2
  rw [← List.replicate_add] at this
  simpa using this

theorem absRun_info (ops : List (Op PP V)) (hall : ∀ op ∈ ops, op.pushesInfo = true)
    (ts : List (diffInfo PP V)) :
    ∃ (rs : List (diffInfo PP V × Bool)) (us : List (diffInfo PP V)),
      absRun ops (ts.map Any.info) = Except.ok (rs, us.map Any.info) := by
  induction ops generalizing ts with
  | nil => exact ⟨[], ts, rfl⟩
  | cons op ops ih =>
    have hop := hall op (by simp)
    have hrest : ∀ o ∈ ops, o.pushesInfo = true := fun o ho => hall o (by simp [ho])
    cases op with
    | pushBack v =>
      cases v with
      | info d =>
        obtain ⟨rs, us, h⟩ := ih hrest (ts ++ [d])
        simp only [List.map_append, List.map_cons, List.map_nil] at h
        exact ⟨rs, us, by simp [absRun, absStep, h]⟩
      | nil => simp [Op.pushesInfo] at hop
      | other t => simp [Op.pushesInfo] at hop
    | pushFront v =>
      cases v with
      | info d =>
        obtain ⟨rs, us, h⟩ := ih hrest (d :: ts)
        simp only [List.map_cons] at h
        exact ⟨rs, us, by simp [absRun, absStep, h]⟩
      | nil => simp [Op.pushesInfo] at hop
      | other t => simp [Op.pushesInfo] at hop
    | popFront =>
      cases ts with
      | nil =>
        obtain ⟨rs, us, h⟩ := ih hrest []
        simp only [List.map_nil] at h
        exact ⟨(diffInfo.zero, false) :: rs, us, by simp [absRun, absStep, h]⟩
      | cons t ts =>
        obtain ⟨rs, us, h⟩ := ih hrest ts
        exact ⟨(t, true) :: rs, us, by simp [absRun, absStep, h]⟩

theorem absRun_spec (ops : List (QOp PP V)) (s : List (diffInfo PP V)) :
    absRun (ops.map QOp.toOp) (s.map Any.info) =
      Except.ok ((specRun ops s).1, (specRun ops s).2.map Any.info) := by
  induction ops generalizing s with
  | nil => simp [absRun, specRun]
  | cons op ops ih =>
    cases op with
    | enqueue d =>
      have := ih (s ++ [d])
      simp only [List.map_append, List.map_cons, List.map_nil] at this
      simp [absRun, absStep, specRun, specStep, QOp.toOp, this]
    | dequeue =>
      cases s with
      | nil =>
        have := ih []
        simp only [List.map_nil] at this
        simp [absRun, absStep, specRun, specStep, QOp.toOp, this]
      | cons t ts =>
        have := ih ts
        simp [absRun, absStep, specRun, specStep, QOp.toOp, this]

theorem drain_Rep (ts : List (diffInfo PP V)) {q : diffQueue PP V}
    {xs : List (Nat × Any PP V)} (h : Rep q xs) (hx : xs.map Prod.snd = ts.map Any.info)
    (fuel : Nat) :
    (ts.length < fuel → ∃ q2, drain fuel q = Except.ok (some (ts, q2)) ∧ Rep q2 []) ∧
      (fuel ≤ ts.length → drain fuel q = Except.ok none) := by
  induction ts generalizing q xs fuel with
  | nil =>
    simp only [List.map_nil, List.map_eq_nil_iff] at hx
    subst hx
    cases fuel with
    | zero => simp [drain, pure, Except.pure]
    | succ f =>
      refine ⟨fun _ => ⟨q, ?_, h⟩, fun hf => by simp at hf⟩
      simp [drain, Rep_PopFront_nil h, bind, Except.bind, pure, Except.pure]
  | cons t ts ih =>
    obtain ⟨a, rest, rfl, hrest⟩ := map_snd_eq_cons hx
    obtain ⟨q1, hp, hr⟩ := Rep_PopFront_info h
    cases fuel with
    | zero => simp [drain, pure, Except.pure]
    | succ f =>
      obtain ⟨ih1, ih2⟩ := ih hr hrest f
      constructor
      · intro hf
        obtain ⟨q2, hd, hr2⟩ := ih1 (by simpa using hf)
        exact ⟨q2, by simp [drain, hp, hd, bind, Except.bind, pure, Except.pure], hr2⟩
      · intro hf
        have hd := ih2 (by simpa using hf)
        simp [drain, hp, hd, bind, Except.bind, pure, Except.pure]

theorem Rep_Remove_front {q : diffQueue PP V} {a : Nat} {v : Any PP V}
    {xs : List (Nat × Any PP V)} (h : Rep q ((a, v) :: xs)) :
    ∃ q2, q.Remove (Ptr.node a) = Except.ok (q2, v) ∧ q2.valueOf (Ptr.node a) = Except.ok v ∧
      Rep q2 xs := by
  obtain ⟨l, hl, hi⟩ := h
  obtain ⟨-, l2, h2, hi2, hv⟩ := Remove_front_Inv hi
  refine ⟨⟨some l2⟩, ?_, ?_, l2, rfl, hi2⟩
  · simp [diffQueue.Remove, diffQueue.deref, hl, h2, bind, Except.bind, pure, Except.pure]
  · simp [diffQueue.valueOf, diffQueue.deref, hv, Element.new, bind, Except.bind, pure,
      Except.pure]

theorem reach_info {ops : List (Op PP V)} {rs : List (diffInfo PP V × Bool)}
    {q : diffQueue PP V} (h : run ops NewDiffQueue = Except.ok (rs, q))
    (hall : ops.all Op.pushesInfo = true) :
    ∃ (xs : List (Nat × Any PP V)) (us : List (diffInfo PP V)),
      Rep q xs ∧ xs.map Prod.snd = us.map Any.info := by
  obtain ⟨xs, hr, ha⟩ := reach_Rep h
  obtain ⟨rs2, us, hu⟩ := absRun_info ops (by simpa [List.all_eq_true] using hall) []
  simp only [List.map_nil] at hu
  rw [ha] at hu
  simp only [Except.ok.injEq, Prod.mk.injEq] at hu
  exact ⟨xs, us, hr, hu.2⟩

theorem taskA_ne_taskB : taskA ≠ taskB := by
  intro h
  have := congrArg diffInfo.path h
  simp [taskA, taskB] at this

/-! ## The claims -/

/-- C1 (FIFO order): for every finite list of tasks `ts`, pushing the elements of `ts` in order
with `PushBack` onto `NewDiffQueue()` and then calling `PopFront` `len(ts) + 1` times succeeds,
the `k`-th call returning `(ts[k], true)` and the last one `(diffInfo{}, false)`. -/
theorem C1_fifo_order (ts : List (diffInfo PP V)) :
    ∃ q, run (ts.map (fun d => Op.pushBack (Any.info d)) ++
        List.replicate (ts.length + 1) Op.popFront) NewDiffQueue =
      Except.ok (ts.map (fun d => (d, true)) ++ [(diffInfo.zero, false)], q) := by
  have h := absRun_append (absRun_pushes ts []) (by simpa using absRun_pops_all ts)
  obtain ⟨q2, zs, hr, -, -⟩ := run_abs (Rep_New : Rep (NewDiffQueue : diffQueue PP V) []) h
  exact ⟨q2, by simpa using hr⟩

/-- C2 (dequeue returns a task or empty): on every queue built from `NewDiffQueue()` by calls
that push tasks, `PopFront` returns; it returns `ok = false` exactly when the queue holds no
element (equivalently `Len() = 0`), in that case with the zero `diffInfo` and the queue
unchanged; otherwise `ok = true` and the task returned is the element at the front. -/
theorem C2_dequeue_task_or_empty (ops : List (Op PP V)) (rs : List (diffInfo PP V × Bool))
    (q : diffQueue PP V) (h : run ops NewDiffQueue = Except.ok (rs, q))
    (hall : ops.all Op.pushesInfo = true) :
    ∃ d ok q2, q.PopFront = Except.ok ((d, ok), q2) ∧
      (ok = false ↔ q.contents = some []) ∧
      (ok = false ↔ q.Len = Except.ok 0) ∧
      (ok = false → d = diffInfo.zero ∧ q2 = q) ∧
      (ok = true → ∃ rest, q.contents = some (Any.info d :: rest)) := by
  obtain ⟨xs, us, hr, hx⟩ := reach_info h hall
  have hc := Rep_contents hr
  have hl := Rep_Len hr
  cases us with
  | nil =>
    simp only [List.map_nil, List.map_eq_nil_iff] at hx
    subst hx
    exact ⟨diffInfo.zero, false, q, Rep_PopFront_nil hr, by simp [hc], by simp [hl],
      fun _ => ⟨rfl, rfl⟩, by simp⟩
  | cons u us =>
    obtain ⟨a, rest, rfl, hrest⟩ := map_snd_eq_cons hx
    obtain ⟨q2, hp, -⟩ := Rep_PopFront_info hr
    refine ⟨u, true, q2, hp, by simp [hc], ?_, by simp, fun _ => ⟨_, by simpa using hc⟩⟩
    simp only [hl, Except.ok.injEq, List.length_cons]
    constructor
    · intro hf
      cases hf
    · intro hf
      omega

/-- Witness of C2 on the queue obtained by pushing two tasks and popping one. -/
theorem C2_dequeue_task_or_empty_witness :
    ∃ q : diffQueue PathPart Value,
      run [Op.pushBack (Any.info taskA), Op.pushBack (Any.info taskB), Op.popFront]
        NewDiffQueue = Except.ok ([(taskA, true)], q) ∧
      ∃ d ok q2, q.PopFront = Except.ok ((d, ok), q2) ∧
        (ok = false ↔ q.contents = some []) ∧
        (ok = false ↔ q.Len = Except.ok 0) ∧
        (ok = false → d = diffInfo.zero ∧ q2 = q) ∧
        (ok = true → ∃ rest, q.contents = some (Any.info d :: rest)) :=
  ⟨_, rfl, C2_dequeue_task_or_empty
    [Op.pushBack (Any.info taskA), Op.pushBack (Any.info taskB), Op.popFront] _ _ rfl rfl⟩

/-- C3 (a task is consumed exactly once and never mutated): on a queue built from
`NewDiffQueue()` whose contents are `t :: rest`, `PopFront` returns `t` with its four fields
as enqueued and leaves exactly `rest`, in order and unchanged; the length decreases by one, and
the later calls of `PopFront` return the tasks of `rest` and then report the empty queue, so
the popped occurrence of `t` is not returned again. -/
theorem C3_pop_consumes_front (ops : List (Op PP V)) (rs : List (diffInfo PP V × Bool))
    (q : diffQueue PP V) (h : run ops NewDiffQueue = Except.ok (rs, q))
    (t : diffInfo PP V) (rest : List (diffInfo PP V))
    (hc : q.contents = some (Any.info t :: rest.map Any.info)) :
    ∃ d q2, q.PopFront = Except.ok ((d, true), q2) ∧
      d.path = t.path ∧ d.key = t.key ∧ d.v1 = t.v1 ∧ d.v2 = t.v2 ∧
      q2.contents = some (rest.map Any.info) ∧
      (∃ n : Int, q.Len = Except.ok n ∧ q2.Len = Except.ok (n - 1)) ∧
      ∃ q3, run (List.replicate (rest.length + 1) Op.popFront) q2 =
        Except.ok (rest.map (fun d => (d, true)) ++ [(diffInfo.zero, false)], q3) := by
  obtain ⟨xs, hr, -⟩ := reach_Rep h
  have hx := Rep_contents hr
  rw [hc, Option.some.injEq] at hx
  obtain ⟨a, xs2, rfl, hrest⟩ := map_snd_eq_cons hx.symm
  obtain ⟨q2, hp, hr2⟩ := Rep_PopFront_info hr
  obtain ⟨q3, zs, hrun, -, -⟩ := run_abs hr2 (by rw [hrest]; exact absRun_pops_all rest)
  refine ⟨t, q2, hp, rfl, rfl, rfl, rfl, ?_, ⟨(xs2.length : Int) + 1, ?_, ?_⟩, q3, hrun⟩
  · rw [Rep_contents hr2, hrest]
  · rw [Rep_Len hr]
    simp
  · rw [Rep_Len hr2]
    simp

/-- Witness of C3 on the queue holding the three sample tasks. -/
theorem C3_pop_consumes_front_witness :
    ∃ q : diffQueue PathPart Value,
      run [Op.pushBack (Any.info taskA), Op.pushBack (Any.info taskB),
        Op.pushBack (Any.info taskC)] NewDiffQueue = Except.ok ([], q) ∧
      q.contents = some (Any.info taskA :: [taskB, taskC].map Any.info) ∧
      ∃ d q2, q.PopFront = Except.ok ((d, true), q2) ∧
        d.path = taskA.path ∧ d.key = taskA.key ∧ d.v1 = taskA.v1 ∧ d.v2 = taskA.v2 ∧
        q2.contents = some ([taskB, taskC].map Any.info) ∧
        (∃ n : Int, q.Len = Except.ok n ∧ q2.Len = Except.ok (n - 1)) ∧
        ∃ q3, run (List.replicate ([taskB, taskC].length + 1) Op.popFront) q2 =
          Except.ok ([taskB, taskC].map (fun d => (d, true)) ++ [(diffInfo.zero, false)], q3) :=
  ⟨_, rfl, rfl, C3_pop_consumes_front
    [Op.pushBack (Any.info taskA), Op.pushBack (Any.info taskB), Op.pushBack (Any.info taskC)]
    _ _ rfl taskA [taskB, taskC] rfl⟩

/-- C4 (draining terminates when the worklist is empty): on a queue built from
`NewDiffQueue()` that holds the `n` tasks `ts`, the loop that calls `PopFront` until it returns
`ok = false` ends within `n + 1` calls, after exactly the `n` successful pops of `ts`, and
leaves the queue empty with length 0; `n` calls are not enough; and after `k` successful pops
the length is `n - k`, so it decreases strictly with every successful pop. -/
theorem C4_drain_terminates (ops : List (Op PP V)) (rs : List (diffInfo PP V × Bool))
    (q : diffQueue PP V) (h : run ops NewDiffQueue = Except.ok (rs, q))
    (ts : List (diffInfo PP V)) (hc : q.contents = some (ts.map Any.info)) :
    (∀ fuel, ts.length < fuel →
      ∃ q2, drain fuel q = Except.ok (some (ts, q2)) ∧ q2.Len = Except.ok 0 ∧
        q2.contents = some []) ∧
    (∀ fuel, fuel ≤ ts.length → drain fuel q = Except.ok none) ∧
    (∀ k, k ≤ ts.length →
      ∃ qk, run (List.replicate k Op.popFront) q =
          Except.ok ((ts.take k).map (fun d => (d, true)), qk) ∧
        qk.Len = Except.ok ((ts.length : Int) - (k : Int))) := by
  obtain ⟨xs, hr, -⟩ := reach_Rep h
  have hx := Rep_contents hr
  rw [hc, Option.some.injEq] at hx
  refine ⟨fun fuel hf => ?_, fun fuel hf => (drain_Rep ts hr hx.symm fuel).2 hf,
    fun k hk => ?_⟩
  · obtain ⟨q2, hd, hr2⟩ := (drain_Rep ts hr hx.symm fuel).1 hf
    exact ⟨q2, hd, by simpa using Rep_Len hr2, by simpa using Rep_contents hr2⟩
  · obtain ⟨qk, zs, hrun, hrk, hzs⟩ := run_abs hr (by rw [← hx]; exact absRun_pops ts k hk)
    refine ⟨qk, hrun, ?_⟩
    rw [Rep_Len hrk]
    have hlen := congrArg List.length hzs
    simp only [List.length_map, List.length_drop] at hlen
    rw [hlen]
    congr 1
    omega

/-- Witness of C4 on the queue holding two sample tasks. -/
theorem C4_drain_terminates_witness :
    ∃ q : diffQueue PathPart Value,
      run [Op.pushBack (Any.info taskA), Op.pushBack (Any.info taskB)] NewDiffQueue =
        Except.ok ([], q) ∧
      q.contents = some ([taskA, taskB].map Any.info) ∧
      (∀ fuel, [taskA, taskB].length < fuel →
        ∃ q2, drain fuel q = Except.ok (some ([taskA, taskB], q2)) ∧ q2.Len = Except.ok 0 ∧
          q2.contents = some []) ∧
      (∀ fuel, fuel ≤ [taskA, taskB].length → drain fuel q = Except.ok none) ∧
      (∀ k, k ≤ [taskA, taskB].length →
        ∃ qk, run (List.replicate k Op.popFront) q =
            Except.ok (([taskA, taskB].take k).map (fun d => (d, true)), qk) ∧
          qk.Len = Except.ok (([taskA, taskB].length : Int) - (k : Int))) :=
  ⟨_, rfl, rfl, C4_drain_terminates
    [Op.pushBack (Any.info taskA), Op.pushBack (Any.info taskB)] _ _ rfl [taskA, taskB] rfl⟩

/-- C5 (the queue refines an abstract list): for every finite sequence of `PushBack(d)` and
`PopFront` calls applied to `NewDiffQueue()`, the calls succeed, the results of the `PopFront`
calls are those of the pure list model and the final contents are the final list of the model;
in particular a task pushed afterwards is returned only after every task that was queued at
that moment. -/
theorem C5_refines_list_model (ops : List (QOp PP V)) :
    (∃ q, run (ops.map QOp.toOp) NewDiffQueue = Except.ok ((specRun ops []).1, q) ∧
      q.contents = some ((specRun ops []).2.map Any.info)) ∧
    (∀ d : diffInfo PP V,
      ∃ q, run (ops.map QOp.toOp ++ (Op.pushBack (Any.info d) ::
          List.replicate ((specRun ops []).2.length + 1) Op.popFront)) NewDiffQueue =
        Except.ok ((specRun ops []).1 ++
          ((specRun ops []).2.map (fun t => (t, true)) ++ [(d, true)]), q)) := by
  have hspec := absRun_spec ops ([] : List (diffInfo PP V))
  simp only [List.map_nil] at hspec
  constructor
  · obtain ⟨q, zs, hrun, hr, hzs⟩ :=
      run_abs (Rep_New : Rep (NewDiffQueue : diffQueue PP V) []) hspec
    exact ⟨q, hrun, by rw [Rep_contents hr, hzs]⟩
  · intro d
    have hpops := absRun_pops ((specRun ops []).2 ++ [d]) ((specRun ops []).2 ++ [d]).length
      (Nat.le_refl _)
    rw [List.take_length, List.drop_length] at hpops
    simp only [List.length_append, List.length_singleton, List.map_append, List.map_cons,
      List.map_nil] at hpops
    have htail : absRun (Op.pushBack (Any.info d) ::
        List.replicate ((specRun ops []).2.length + 1) Op.popFront)
        ((specRun ops []).2.map Any.info) =
        Except.ok ((specRun ops []).2.map (fun t => (t, true)) ++ [(d, true)], []) := by
      have hpush : absRun [Op.pushBack (Any.info d)] ((specRun ops []).2.map Any.info) =
          Except.ok ([], (specRun ops []).2.map Any.info ++ [Any.info d]) := by
        simp [absRun, absStep]
      exact absRun_append hpush hpops
    obtain ⟨q, zs, hrun, -, -⟩ :=
      run_abs (Rep_New : Rep (NewDiffQueue : diffQueue PP V) []) (absRun_append hspec htail)
    exact ⟨q, hrun⟩

/-- C6, counterexample: two tasks with the same path and the same comparands `v1`, `v2` that
differ in their `key`. -/
theorem C6_counterexample :
    ¬ ∀ d1 d2 : diffInfo PathPart Value,
      d1.path = d2.path → d1.v1 = d2.v1 → d1.v2 = d2.v2 → d1 = d2 := by
  intro h
  have e := h taskC { taskC with key := none } rfl rfl rfl
  have := congrArg diffInfo.key e
  simp [taskC] at this

/-- C6, amended: a diff task is fully determined by its path, its key and its two comparands:
two `diffInfo` values with equal `path`, `key`, `v1` and `v2` are equal (the record carries
these four fields and nothing else). -/
theorem C6_task_determined_by_fields (d1 d2 : diffInfo PP V) (hp : d1.path = d2.path)
    (hk : d1.key = d2.key) (h1 : d1.v1 = d2.v1) (h2 : d1.v2 = d2.v2) : d1 = d2 := by
  cases d1
  cases d2
  simp only at hp hk h1 h2
  subst hp hk h1 h2
  rfl

/-- Witness of the amended C6 on a sample task and a copy of it built field by field. -/
theorem C6_task_determined_by_fields_witness :
    taskC = diffInfo.mk [PathPart.field "m"] (some (Value.prim (Scalar.string "k")))
      (some (Value.prim (Scalar.number 1))) (some (Value.prim (Scalar.number 20))) :=
  C6_task_determined_by_fields taskC _ rfl rfl rfl rfl

/-- C7 (`PopFront` is safe on well-formed queues): every sequence of calls on `NewDiffQueue()`
that pushes only `diffInfo` values runs without panic, and on the queue it reaches the front
lookup is defined, the type assertion on the removed element succeeds, and `PopFront` returns.
A run that panics has pushed a value that is not a `diffInfo`; `PopFront` on a queue with a
nil list panics with a nil dereference, and after pushing a value that is not a `diffInfo`
(or `nil`) it panics in the type assertion. -/
theorem C7_popFront_safe (ops : List (Op PP V)) (hall : ops.all Op.pushesInfo = true) :
    (∃ rs q, run ops NewDiffQueue = Except.ok (rs, q) ∧
      (∃ e, q.Front = Except.ok e ∧
        (e ≠ Ptr.nil → ∃ q1 d, q.Remove e = Except.ok (q1, Any.info d) ∧
          q1.valueOf e = Except.ok (Any.info d))) ∧
      ∃ r, q.PopFront = Except.ok r) ∧
    (∀ (ops2 : List (Op PP V)) (e : Panic),
      run ops2 NewDiffQueue = Except.error e → ops2.all Op.pushesInfo = false) ∧
    diffQueue.PopFront ({ list := none } : diffQueue PP V) =
      Except.error Panic.nilDereference ∧
    (∀ tag : Nat, run [Op.pushBack (Any.other tag), Op.popFront]
      (NewDiffQueue : diffQueue PP V) = Except.error Panic.typeAssertion) ∧
    run [Op.pushBack Any.nil, Op.popFront] (NewDiffQueue : diffQueue PP V) =
      Except.error Panic.typeAssertion := by
  have total : ∀ ops1 : List (Op PP V), ops1.all Op.pushesInfo = true →
      ∃ rs q, run ops1 NewDiffQueue = Except.ok (rs, q) := by
    intro ops1 h1
    obtain ⟨rs, us, hu⟩ := absRun_info ops1 (by simpa [List.all_eq_true] using h1) []
    obtain ⟨q, zs, hrun, -, -⟩ :=
      run_abs (Rep_New : Rep (NewDiffQueue : diffQueue PP V) []) hu
    exact ⟨rs, q, hrun⟩
  refine ⟨?_, ?_, ?_, ?_, ?_⟩
  · obtain ⟨rs, q, hrun⟩ := total ops hall
    obtain ⟨xs, us, hr, hx⟩ := reach_info hrun hall
    refine ⟨rs, q, hrun, ?_, ?_⟩
    · cases us with
      | nil =>
        simp only [List.map_nil, List.map_eq_nil_iff] at hx
        subst hx
        exact ⟨Ptr.nil, Rep_Front_nil hr, fun hne => absurd rfl hne⟩
      | cons u us =>
        obtain ⟨a, rest, rfl, -⟩ := map_snd_eq_cons hx
        obtain ⟨q1, h1, h2, -⟩ := Rep_Remove_front hr
        exact ⟨Ptr.node a, Rep_Front_cons hr, fun _ => ⟨q1, u, h1, h2⟩⟩
    · cases us with
      | nil =>
        simp only [List.map_nil, List.map_eq_nil_iff] at hx
        subst hx
        exact ⟨_, Rep_PopFront_nil hr⟩
      | cons u us =>
        obtain ⟨a, rest, rfl, -⟩ := map_snd_eq_cons hx
        obtain ⟨q2, hp, -⟩ := Rep_PopFront_info hr
        exact ⟨_, hp⟩
  · intro ops2 e he
    cases hb : ops2.all Op.pushesInfo with
    | false => rfl
    | true =>
      obtain ⟨rs, q, hrun⟩ := total ops2 hb
      rw [hrun] at he
      cases he
  · rfl
  · intro tag
    rfl
  · rfl

/-- Witness of C7 on a sequence of calls that pushes at both ends and pops past the end. -/
theorem C7_popFront_safe_witness :
    ∃ (rs : List (diffInfo PathPart Value × Bool)) (q : diffQueue PathPart Value),
      run [Op.pushBack (Any.info taskA), Op.pushFront (Any.info taskB), Op.popFront,
        Op.popFront, Op.popFront, Op.pushBack (Any.info taskC)] NewDiffQueue =
        Except.ok (rs, q) ∧
      (∃ e, q.Front = Except.ok e ∧
        (e ≠ Ptr.nil → ∃ q1 d, q.Remove e = Except.ok (q1, Any.info d) ∧
          q1.valueOf e = Except.ok (Any.info d))) ∧
      ∃ r, q.PopFront = Except.ok r :=
  (C7_popFront_safe [Op.pushBack (Any.info taskA), Op.pushFront (Any.info taskB), Op.popFront,
    Op.popFront, Op.popFront, Op.pushBack (Any.info taskC)] rfl).1

/-- C8 (FIFO is not enforced by the queue type): on every queue built from `NewDiffQueue()`,
`PushFront(d)` followed by `PopFront` returns `(d, true)` and leaves the previous contents and
length unchanged; `PopFront` returns whatever task is at the front of the embedded list; and
two distinct tasks inserted with `PushFront` are popped in the reverse of the insertion
order. -/
theorem C8_fifo_not_enforced (ops : List (Op PP V)) (rs : List (diffInfo PP V × Bool))
    (q : diffQueue PP V) (h : run ops NewDiffQueue = Except.ok (rs, q)) (d : diffInfo PP V) :
    (∃ q1 e q2, q.PushFront (Any.info d) = Except.ok (q1, e) ∧
      q1.PopFront = Except.ok ((d, true), q2) ∧ q2.contents = q.contents ∧ q2.Len = q.Len) ∧
    (∀ d0 rest, q.contents = some (Any.info d0 :: rest) →
      ∃ q2, q.PopFront = Except.ok ((d0, true), q2) ∧ q2.contents = some rest) ∧
    (∃ (d1 d2 : diffInfo PathPart Value) (q3 : diffQueue PathPart Value), d1 ≠ d2 ∧
      run [Op.pushFront (Any.info d1), Op.pushFront (Any.info d2), Op.popFront, Op.popFront]
        NewDiffQueue = Except.ok ([(d2, true), (d1, true)], q3)) := by
  obtain ⟨xs, hr, -⟩ := reach_Rep h
  refine ⟨?_, ?_, ⟨taskA, taskB, _, taskA_ne_taskB, rfl⟩⟩
  · obtain ⟨q1, a, hpush, hr1⟩ := Rep_PushFront hr (Any.info d)
    obtain ⟨q2, hpop, hr2⟩ := Rep_PopFront_info hr1
    exact ⟨q1, Ptr.node a, q2, hpush, hpop, by rw [Rep_contents hr2, Rep_contents hr],
      by rw [Rep_Len hr2, Rep_Len hr]⟩
  · intro d0 rest hc
    have hx := Rep_contents hr
    rw [hc, Option.some.injEq] at hx
    obtain ⟨a, xs2, rfl, hrest⟩ := map_snd_eq_cons hx.symm
    obtain ⟨q2, hp, hr2⟩ := Rep_PopFront_info hr
    exact ⟨q2, hp, by rw [Rep_contents hr2, hrest]⟩

/-- Witness of C8 on the queue that holds two sample tasks. -/
theorem C8_fifo_not_enforced_witness :
    ∃ q : diffQueue PathPart Value,
      run [Op.pushBack (Any.info taskA), Op.pushBack (Any.info taskB)] NewDiffQueue =
        Except.ok ([], q) ∧
      ∃ q1 e q2, q.PushFront (Any.info taskC) = Except.ok (q1, e) ∧
        q1.PopFront = Except.ok ((taskC, true), q2) ∧ q2.contents = q.contents ∧
        q2.Len = q.Len :=
  ⟨_, rfl, (C8_fifo_not_enforced
    [Op.pushBack (Any.info taskA), Op.pushBack (Any.info taskB)] _ _ rfl taskC).1⟩

/-- C9 (`NewDiffQueue` returns an empty queue): for the queue `q` returned by
`NewDiffQueue()`, `q.Len() = 0`, `q.Front()` is `nil`, the queue holds no value, and the
first `PopFront` returns `(diffInfo{}, false)` and leaves the queue as it is. -/
theorem C9_new_queue_empty :
    (NewDiffQueue : diffQueue PP V).Len = Except.ok 0 ∧
    (NewDiffQueue : diffQueue PP V).Front = Except.ok Ptr.nil ∧
    (NewDiffQueue : diffQueue PP V).contents = some [] ∧
    (NewDiffQueue : diffQueue PP V).PopFront =
      Except.ok ((diffInfo.zero, false), NewDiffQueue) :=
  ⟨rfl, rfl, rfl, rfl⟩

end NomsDiff
